import Mathlib

/-!
Verification of the MonkeyHub repository: a shallow embedding of the
frontend components (`Header.jsx`, `LanguageContext.jsx`, `MonkeyGrid`)
and of the resumable, concurrency-bounded batch pipeline described by the
repository documentation (manifest journal, discovery loop, bounded work
pool, retry policy).
-/

namespace MonkeyHub

/-! ## Language context (`src/fronted/src/contexts/LanguageContext.jsx`) -/

/-- A translation table: for a language and a key, either a string entry or
nothing.  In the JavaScript source the table is the imported `translations`
object; an absent property reads as `undefined` (here `none`), and an entry
is truthy exactly when it is a nonempty string. -/
def TranslationTable : Type := String → String → Option String

/-- Embedding of `const t = (key) => translations[lang][key] || key` from
`LanguageProvider`: return the table entry when it is truthy (a nonempty
string), otherwise fall back to the key itself. -/
def t (table : TranslationTable) (lang key : String) : String :=
  match table lang key with
  | some v => if v = "" then key else v
  | none => key

/-! ## Header language toggle (`src/fronted/src/components/Header.jsx`) -/

/-- The language list `const langs = ['zh', 'en', 'ja']` from `toggleLang`. -/
def langs : List String := ["zh", "en", "ja"]

/-- JavaScript `Array.prototype.indexOf`: index of the first occurrence,
`-1` when absent. -/
def jsIndexOf (l : List String) (x : String) : Int :=
  match l.findIdx? (· == x) with
  | some i => (i : Int)
  | none => -1

/-- Embedding of `toggleLang`: `langs[(langs.indexOf(lang) + 1) % langs.length]`. -/
def toggleLang (lang : String) : String :=
  let nextIndex := (jsIndexOf langs lang + 1) % (langs.length : Int)
  langs.getD nextIndex.toNat "undefined"

/-! ## MonkeyGrid pagination (`src/unnamed/part_000`, `MonkeyGrid`) -/

/-- `const PAGE_SIZE = 24`. -/
def PAGE_SIZE : Nat := 24

/-- The React state of `MonkeyGrid` relevant to pagination: `items`,
`displayedItems`, `page`, `loading` and `hasMore` (particles are purely
visual and carry no pagination state). Items are identified by their ids. -/
structure GridState where
  items : List String
  displayedItems : List String
  page : Nat
  loading : Bool
  hasMore : Bool
  deriving Repr, DecidableEq

/-- The state right after the manifest fetch resolves with `data`:
`setItems(data); setDisplayedItems(data.slice(0, PAGE_SIZE)); setLoading(false)`,
with the initial `page = 1` and `hasMore = true` unchanged. -/
def initGrid (data : List String) : GridState :=
  { items := data
    displayedItems := data.take PAGE_SIZE
    page := 1
    loading := false
    hasMore := true }

/-- Embedding of one completed `loadMore` click: the early return when
`!hasMore`, otherwise the body of the `setTimeout` callback
(`nextPage = page + 1; nextItems = items.slice(0, nextPage * PAGE_SIZE);`
update `displayedItems`, `page`, `loading`, and set `hasMore` to `false`
when `nextItems.length >= items.length`). -/
def loadMore (s : GridState) : GridState :=
  if !s.hasMore then s
  else
    let nextPage := s.page + 1
    let nextItems := s.items.take (nextPage * PAGE_SIZE)
    { s with
      displayedItems := nextItems
      page := nextPage
      loading := false
      hasMore := if s.items.length ≤ nextItems.length then false else s.hasMore }

/-! ## Batch pipeline

The scraping / AI-batch scripts (`crawl_pighub_images.py`,
`ai_monkey_ip_batch.py`) are documented by the repository but their code is
not part of the sources available here, so the pipeline below is modelled
from the specification: the manifest journal, the discovery loop, the retry
policy, the bounded work pool and the error taxonomy. -/

/-- Modelled from the spec: a `Success` outcome record, one JSON line of the
manifest journal with required fields `id`, `outputPath`, `timestamp`
(`crawl_pighub_images.py` / `ai_monkey_ip_batch.py` are not in the sources). -/
structure SuccessRecord where
  id : String
  outputPath : String
  timestamp : Nat
  deriving Repr, DecidableEq

/-- Consume an expected literal from the front of a character stream,
returning the remainder, or `none` on a mismatch or a too-short stream. -/
def expectLit : List Char → List Char → Option (List Char)
  | [], s => some s
  | _ :: _, [] => none
  | c :: cs, d :: ds => if c = d then expectLit cs ds else none

/-- Take characters up to (and consuming) the first occurrence of `stop`;
`none` if `stop` never occurs. -/
def takeUntil (stop : Char) : List Char → Option (List Char × List Char)
  | [] => none
  | c :: cs =>
    if c = stop then some ([], cs)
    else
      match takeUntil stop cs with
      | some (a, b) => some (c :: a, b)
      | none => none

/-- Numeric value of a decimal digit character. -/
def digitVal (c : Char) : Nat := c.toNat - 48

/-- Decimal value of a digit string (most significant digit first). -/
def natOfDigits (ds : List Char) : Nat :=
  ds.foldl (fun acc c => 10 * acc + digitVal c) 0

/-- Decimal rendering of a positive natural number, most significant digit
first; `fuel` bounds the recursion depth (any `fuel ≥ n` is exact). -/
def natToCharsAux : Nat → Nat → List Char
  | 0, _ => []
  | fuel + 1, n =>
    if n = 0 then []
    else natToCharsAux fuel (n / 10) ++ [Char.ofNat (48 + n % 10)]

/-- Decimal rendering of a natural number as characters. -/
def natToChars (n : Nat) : List Char :=
  if n = 0 then ['0'] else natToCharsAux n n

/-- The literal opening a success journal line, up to the id value. -/
def jsonLit1 : List Char := "\x7b\"id\":\"".data

/-- The literal between the id value and the outputPath value. -/
def jsonLit2 : List Char := ",\"outputPath\":\"".data

/-- The literal between the outputPath value and the timestamp value. -/
def jsonLit3 : List Char := ",\"timestamp\":".data

/-- Modelled from the spec: the JSON encoding of a `Success` manifest line,
`\x7b"id":"…","outputPath":"…","timestamp":…\x7d`. -/
def encodeChars (r : SuccessRecord) : List Char :=
  jsonLit1 ++ r.id.data ++
    '"' :: (jsonLit2 ++ r.outputPath.data ++
      '"' :: (jsonLit3 ++ natToChars r.timestamp ++ ['\x7d']))

/-- The journal line for a `Success` record. -/
def encodeSuccess (r : SuccessRecord) : String := String.mk (encodeChars r)

/-- Modelled from the spec: parse one journal line into a `SuccessRecord`,
returning `none` on any malformed (e.g. truncated) line. -/
def parseChars (s : List Char) : Option SuccessRecord :=
  match expectLit jsonLit1 s with
  | none => none
  | some s1 =>
    match takeUntil '"' s1 with
    | none => none
    | some (idCs, s2) =>
      match expectLit jsonLit2 s2 with
      | none => none
      | some s3 =>
        match takeUntil '"' s3 with
        | none => none
        | some (outCs, s4) =>
          match expectLit jsonLit3 s4 with
          | none => none
          | some s5 =>
            let ds := s5.takeWhile Char.isDigit
            let rest := s5.dropWhile Char.isDigit
            if ds.isEmpty then none
            else if rest = ['\x7d'] then
              some ⟨String.mk idCs, String.mk outCs, natOfDigits ds⟩
            else none

/-- Parse one journal line (string form). -/
def parseLine (s : String) : Option SuccessRecord := parseChars s.data

/-- A record whose string fields contain no `"` character, so that its JSON
line round-trips through the parser (ids and output paths derived from URLs
and file paths satisfy this). -/
def goodRecord (r : SuccessRecord) : Prop :=
  '"' ∉ r.id.data ∧ '"' ∉ r.outputPath.data

instance goodRecord_decidable (r : SuccessRecord) : Decidable (goodRecord r) := by
  unfold goodRecord; exact inferInstance

/-- Modelled from the spec: the Manifest Store — the raw journal lines, the
seen-ID set built from the valid ones, and the separate failure list. -/
structure ManifestStore where
  journal : List String
  seen : List String
  failures : List String
  deriving Repr

/-- The seen-ID set recovered from a journal: ids of lines that parse;
malformed lines are skipped, never fatal. -/
def loadSeen (lines : List String) : List String :=
  (lines.filterMap parseLine).map (·.id)

/-- Modelled from the spec: load-time behavior — build the store from the
existing journal, line by line, skipping malformed lines. -/
def loadStore (lines : List String) : ManifestStore :=
  { journal := lines, seen := loadSeen lines, failures := [] }

/-- `has(id)`: true iff `id` is in the seen-ID set. -/
def has (m : ManifestStore) (id : String) : Bool := m.seen.contains id

/-- `recordSuccess`: append the JSON line to the journal and the id to the
seen-ID set. -/
def recordSuccess (m : ManifestStore) (r : SuccessRecord) : ManifestStore :=
  { m with journal := m.journal ++ [encodeSuccess r], seen := m.seen ++ [r.id] }

/-- `recordFailure`: append to the failure list only; the journal and the
seen-ID set are untouched. -/
def recordFailure (m : ManifestStore) (id : String) : ManifestStore :=
  { m with failures := m.failures ++ [id] }

/-- A recording operation performed against the Manifest Store during a run. -/
inductive ManifestOp where
  | success (r : SuccessRecord)
  | failure (id : String)
  deriving DecidableEq

/-- Whether an operation writes only well-formed (round-tripping) records:
a failure always, a success when its record is `good`. -/
def goodOp : ManifestOp → Bool
  | .success r => decide (goodRecord r)
  | .failure _ => true

/-- Apply one recording operation. -/
def applyOp (m : ManifestStore) : ManifestOp → ManifestStore
  | .success r => recordSuccess m r
  | .failure id => recordFailure m id

/-- Apply a sequence of recording operations. -/
def applyOps (m : ManifestStore) (ops : List ManifestOp) : ManifestStore :=
  ops.foldl applyOp m

/-- Whether a journal line parses to a `Success` record carrying `id`. -/
def lineHasId (id : String) (l : String) : Bool :=
  match parseLine l with
  | some r => r.id == id
  | none => false

/-- Whether some journal line parses to a `Success` record for `id`. -/
def journalHasSuccess (m : ManifestStore) (id : String) : Bool :=
  m.journal.any (lineHasId id)

/-- Skip decision for resume mode: an item is dropped when `resume` is on
and its id is already in the seen-ID set. -/
def shouldSkip (m : ManifestStore) (resume : Bool) (i : String) : Bool :=
  resume && has m i

/-- Modelled from the spec: the discovery loop. `round` is the current
round number, `fuel` the number of rounds still allowed by `maxRounds`,
`seen` the ids revealed so far and `stag` the stagnation counter. A round
with no new items increments the counter, any new item resets it; the loop
returns the number of the last executed round, stopping when the counter
reaches `settleRounds` or the rounds are exhausted. -/
def discoverGo (source : Nat → List String) (settleRounds : Nat) :
    Nat → Nat → List String → Nat → Nat
  | 0, round, _, _ => round - 1
  | fuel + 1, round, seen, stag =>
    let fresh := (source round).filter fun x => !(seen.contains x)
    let stag' := if fresh = [] then stag + 1 else 0
    if settleRounds ≤ stag' then round
    else discoverGo source settleRounds fuel (round + 1) (seen ++ fresh) stag'

/-- Run discovery from round 1 with an empty seen set: the round at which
discovery stops. -/
def runDiscovery (source : Nat → List String) (settleRounds maxRounds : Nat) : Nat :=
  discoverGo source settleRounds maxRounds 1 [] 0

/-- The outcome of processing one work item. -/
inductive Outcome where
  | success (id : String)
  | failure (id : String)
  deriving Repr, DecidableEq

/-- Modelled from the spec: the retry loop of the Bounded Work Pool. The
attempt with index `idx` runs; on success the item succeeds, on failure a
further attempt starts only if retries remain. Returns the total number of
Processing Function invocations together with the final outcome. -/
def runAttempts (attempt : Nat → Bool) (id : String) : Nat → Nat → Nat × Outcome
  | 0, idx =>
    if attempt idx then (idx + 1, Outcome.success id) else (idx + 1, Outcome.failure id)
  | r + 1, idx =>
    if attempt idx then (idx + 1, Outcome.success id)
    else runAttempts attempt id r (idx + 1)

/-- Process one item under the retry policy: at most `maxRetries`
re-attempts after the initial attempt. -/
def processWithRetries (attempt : Nat → Bool) (id : String) (maxRetries : Nat) :
    Nat × Outcome :=
  runAttempts attempt id maxRetries 0

/-- The observable state of the Bounded Work Pool: items not yet admitted,
items currently in flight, and recorded outcomes. -/
structure PoolState where
  pending : List String
  inFlight : List String
  done : List Outcome
  deriving Repr

/-- The pool before any item is admitted. -/
def poolInit (items : List String) : PoolState :=
  { pending := items, inFlight := [], done := [] }

/-- Modelled from the spec: one scheduling step of the Bounded Work Pool.
An item is admitted only when a slot is free (fewer than `concurrency`
items in flight); a completed or failed item leaves the in-flight set and
its outcome is recorded, freeing its slot. -/
inductive PoolStep (concurrency : Nat) : PoolState → PoolState → Prop
  | acquire (w : String) (rest : List String) (s : PoolState) :
      s.pending = w :: rest →
      s.inFlight.length < concurrency →
      PoolStep concurrency s ⟨rest, w :: s.inFlight, s.done⟩
  | complete (pre post : List String) (w : String) (o : Outcome) (s : PoolState) :
      s.inFlight = pre ++ w :: post →
      PoolStep concurrency s ⟨s.pending, pre ++ post, o :: s.done⟩

/-- States reachable by the pool from the initial state. -/
def PoolReachable (concurrency : Nat) (items : List String) : PoolState → Prop :=
  Relation.ReflTransGen (PoolStep concurrency) (poolInit items)

/-- Modelled from the spec: the error taxonomy of §7. -/
inductive PipelineError where
  | fetchError
  | transformError
  | timeoutError
  | discoveryError
  | journalWriteError
  deriving Repr, DecidableEq, Fintype

/-- Whether an error terminates the whole run (§7 propagation policy). -/
def isFatal : PipelineError → Bool
  | .discoveryError => true
  | .journalWriteError => true
  | _ => false

/-- Modelled from the spec: the pool's handling of item results. A per-item
(non-fatal) error is contained: the item is marked failed and its siblings
still run; a fatal error terminates the run. `result i = none` means item
`i` processed and journaled without error. -/
def runPool (result : String → Option PipelineError) :
    List String → Except PipelineError (List (String × Bool))
  | [] => .ok []
  | i :: rest =>
    match result i with
    | none =>
      match runPool result rest with
      | .ok outs => .ok ((i, true) :: outs)
      | .error e => .error e
    | some e =>
      if isFatal e then .error e
      else
        match runPool result rest with
        | .ok outs => .ok ((i, false) :: outs)
        | .error e' => .error e'

/-- Modelled from the spec: a whole run — discovery first (a
`DiscoveryError` aborts before any item runs), then the pool. -/
def runScrape (discovered : Except PipelineError (List String))
    (result : String → Option PipelineError) :
    Except PipelineError (List (String × Bool)) :=
  match discovered with
  | .error e => .error e
  | .ok items => runPool result items

/-- A discoverable work item: a stable id and the locator it derives from. -/
structure WorkItem where
  id : String
  sourceLocator : String
  deriving Repr, DecidableEq

/-- The output file path for an item: `outputDir/<id>`. -/
def outputPathOf (outputDir : String) (i : WorkItem) : String :=
  outputDir ++ "/" ++ i.id

/-- The `Success` record journaled for an item. -/
def mkRecord (outputDir : String) (i : WorkItem) : SuccessRecord :=
  { id := i.id, outputPath := outputPathOf outputDir i, timestamp := 0 }

/-- Modelled from the spec: one sequential run of the pipeline over the
item sequence. Already-seen items are skipped in resume mode; a successful
item writes its output file and records a `Success`; a failed item records
a `Failure`. Returns the final store and the output files written. -/
def runPipeline (outputDir : String) (process : WorkItem → Bool) (resume : Bool) :
    ManifestStore → List WorkItem → ManifestStore × List String
  | m, [] => (m, [])
  | m, i :: rest =>
    if shouldSkip m resume i.id then runPipeline outputDir process resume m rest
    else if process i then
      let step := runPipeline outputDir process resume
        (recordSuccess m (mkRecord outputDir i)) rest
      (step.1, outputPathOf outputDir i :: step.2)
    else runPipeline outputDir process resume (recordFailure m i.id) rest

/-! ## Theorems -/

/-- Invariant of the `MonkeyGrid` state under `loadMore` iterations: the
item list never changes and the displayed list is always the prefix
`items.slice(0, page * PAGE_SIZE)`. -/
theorem loadMore_iterate_inv (data : List String) (n : Nat) :
    (loadMore^[n] (initGrid data)).items = data ∧
    (loadMore^[n] (initGrid data)).displayedItems =
      (loadMore^[n] (initGrid data)).items.take
        ((loadMore^[n] (initGrid data)).page * PAGE_SIZE) := by
  induction n with
  | zero => exact ⟨rfl, by simp [initGrid]⟩
  | succ n ih =>
    rw [Function.iterate_succ_apply']
    rcases ih with ⟨h1, h2⟩
    by_cases hm : (loadMore^[n] (initGrid data)).hasMore
    · simp [loadMore, hm, h1]
    · simp only [Bool.not_eq_true] at hm
      simp [loadMore, hm, h1, h2]

/-- Reduction of `loadMore` on a state with `hasMore = true`: the completed
click body of the source. -/
theorem loadMore_of_hasMore (s : GridState) (hm : s.hasMore = true) :
    loadMore s =
      { s with
        displayedItems := s.items.take ((s.page + 1) * PAGE_SIZE)
        page := s.page + 1
        loading := false
        hasMore :=
          if s.items.length ≤ (s.items.take ((s.page + 1) * PAGE_SIZE)).length
          then false else true } := by
  simp [loadMore, hm]

/-- Claim C8: in `MonkeyGrid`, after the manifest loads and any sequence of
completed `loadMore` clicks, the displayed list is the prefix
`items.slice(0, page * PAGE_SIZE)`; a `loadMore` while `hasMore` holds
grows the displayed prefix by at most `PAGE_SIZE = 24` items and turns
`hasMore` to `false` exactly when the new displayed prefix covers the whole
item list; a `loadMore` when `hasMore` is `false` changes no state. -/
theorem monkeyGrid_pagination (data : List String) (n : Nat) (s : GridState)
    (hs : s = loadMore^[n] (initGrid data)) :
    s.displayedItems = s.items.take (s.page * PAGE_SIZE) ∧
    (s.hasMore = true →
      (loadMore s).displayedItems.length ≤ s.displayedItems.length + PAGE_SIZE ∧
      ((loadMore s).hasMore = false ↔
        (loadMore s).displayedItems.length = s.items.length)) ∧
    (s.hasMore = false → loadMore s = s) := by
  have hinv := loadMore_iterate_inv data n
  rw [← hs] at hinv
  rcases hinv with ⟨h1, h2⟩
  refine ⟨h2, fun hm => ⟨?_, ?_⟩, fun hmf => ?_⟩
  · rw [loadMore_of_hasMore s hm, h2]
    show (s.items.take ((s.page + 1) * PAGE_SIZE)).length ≤
      (s.items.take (s.page * PAGE_SIZE)).length + PAGE_SIZE
    simp only [List.length_take, PAGE_SIZE]
    omega
  · rw [loadMore_of_hasMore s hm]
    by_cases h : s.items.length ≤ (s.items.take ((s.page + 1) * PAGE_SIZE)).length
    · rw [if_pos h]
      refine ⟨fun _ => ?_, fun _ => rfl⟩
      show (s.items.take ((s.page + 1) * PAGE_SIZE)).length = s.items.length
      simp only [List.length_take] at h ⊢
      omega
    · rw [if_neg h]
      refine ⟨fun hc => absurd hc (by simp), fun hlen => ?_⟩
      exact absurd hlen.ge h
  · simp [loadMore, hmf]

/-- Witness for C8 at `data = ["a"]`: the prefix invariant at the initial
state, the growth bound and the `hasMore` characterization across the
first click, and the no-op once `hasMore` is `false`. -/
theorem monkeyGrid_pagination_witness :
    (initGrid ["a"]).displayedItems =
      (initGrid ["a"]).items.take ((initGrid ["a"]).page * PAGE_SIZE) ∧
    (loadMore (initGrid ["a"])).displayedItems.length ≤
      (initGrid ["a"]).displayedItems.length + PAGE_SIZE ∧
    ((loadMore (initGrid ["a"])).hasMore = false ↔
      (loadMore (initGrid ["a"])).displayedItems.length =
        (initGrid ["a"]).items.length) ∧
    loadMore ⟨["a"], ["a"], 2, false, false⟩ = ⟨["a"], ["a"], 2, false, false⟩ :=
  ⟨(monkeyGrid_pagination ["a"] 0 (initGrid ["a"]) rfl).1,
   ((monkeyGrid_pagination ["a"] 0 (initGrid ["a"]) rfl).2.1 rfl).1,
   ((monkeyGrid_pagination ["a"] 0 (initGrid ["a"]) rfl).2.1 rfl).2,
   (monkeyGrid_pagination ["a"] 1 ⟨["a"], ["a"], 2, false, false⟩ (by decide)).2.2 rfl⟩

/-- Claim C9: `toggleLang` cycles the language through exactly
`'zh' → 'en' → 'ja' → 'zh'`: from any of the three languages, three
applications return to the start and one application never stays put. -/
theorem toggleLang_three_cycle (l : String) (h : l ∈ langs) :
    toggleLang (toggleLang (toggleLang l)) = l ∧ toggleLang l ≠ l := by
  simp only [langs, List.mem_cons, List.not_mem_nil, or_false] at h
  rcases h with h | h | h <;> subst h <;> exact ⟨by decide, by decide⟩

/-- Witness for C9 at the default language `'zh'`. -/
theorem toggleLang_three_cycle_witness :
    toggleLang (toggleLang (toggleLang "zh")) = "zh" ∧ toggleLang "zh" ≠ "zh" :=
  toggleLang_three_cycle "zh" (by decide)

/-- Counterexample to claim C10 as stated: with the empty key and a table
with no entry for it, `t` returns the key itself, which is the empty
string — so `t` can yield an empty result. -/
theorem t_empty_key_counterexample : t (fun _ _ => none) "zh" "" = "" := rfl

/-- Claim C10 (amended): `t` returns the table entry when that entry is
truthy (a nonempty string) and the key itself otherwise, so a missing
translation never raises (the embedding is a total function) and never
yields an empty result for a nonempty key. -/
theorem t_truthy_or_key (table : TranslationTable) (lang key : String) :
    (∀ v, table lang key = some v → v ≠ "" → t table lang key = v) ∧
    ((table lang key = none ∨ table lang key = some "") → t table lang key = key) ∧
    (key ≠ "" → t table lang key ≠ "") := by
  refine ⟨fun v hv hne => ?_, fun h => ?_, fun hk => ?_⟩
  · simp [t, hv, if_neg hne]
  · rcases h with h | h <;> simp [t, h]
  · unfold t
    cases hv : table lang key with
    | none => exact hk
    | some v =>
      by_cases h : v = ""
      · simp only [if_pos h]; exact hk
      · simp only [if_neg h]; exact h

/-- Witness for C10 (amended): a truthy entry is returned, a missing entry
falls back to the key, and the result for the nonempty key is nonempty. -/
theorem t_truthy_or_key_witness :
    t (fun _ _ => some "猴猴天堂") "zh" "title" = "猴猴天堂" ∧
    t (fun _ _ => none) "zh" "title" = "title" ∧
    t (fun _ _ => none) "zh" "title" ≠ "" :=
  ⟨(t_truthy_or_key (fun _ _ => some "猴猴天堂") "zh" "title").1 "猴猴天堂" rfl (by decide),
   (t_truthy_or_key (fun _ _ => none) "zh" "title").2.1 (Or.inl rfl),
   (t_truthy_or_key (fun _ _ => none) "zh" "title").2.2 (by decide)⟩

/-- The attempt loop on an always-failing Processing Function performs one
invocation per remaining retry plus the final one, sequentially. -/
theorem runAttempts_all_fail (attempt : Nat → Bool) (id : String)
    (hfail : ∀ i, attempt i = false) :
    ∀ r idx, runAttempts attempt id r idx = (idx + r + 1, Outcome.failure id) := by
  intro r
  induction r with
  | zero => intro idx; simp [runAttempts, hfail idx]
  | succ r ih =>
    intro idx
    simp only [runAttempts, hfail idx, Bool.false_eq_true, if_false, ih (idx + 1)]
    rw [show idx + 1 + r + 1 = idx + (r + 1) + 1 from by omega]

/-- Claim C3: an item whose Processing Function fails on every invocation
is attempted exactly `maxRetries + 1` times in total — the attempts run
sequentially, each retry only after the previous attempt's outcome — and
the final recorded outcome is a `Failure`. -/
theorem retry_exhaustion (attempt : Nat → Bool) (id : String) (maxRetries : Nat)
    (hfail : ∀ i, attempt i = false) :
    processWithRetries attempt id maxRetries = (maxRetries + 1, Outcome.failure id) := by
  unfold processWithRetries
  rw [runAttempts_all_fail attempt id hfail maxRetries 0]
  norm_num

/-- Witness for C3: an always-failing item with `maxRetries = 2` is invoked
exactly three times and ends as a `Failure`. -/
theorem retry_exhaustion_witness :
    processWithRetries (fun _ => false) "item" 2 = (3, Outcome.failure "item") :=
  retry_exhaustion (fun _ => false) "item" 2 (fun _ => rfl)

/-- The in-flight set of every reachable pool state has at most
`concurrency` items. -/
theorem pool_inFlight_le (c : Nat) (items : List String) :
    ∀ s, PoolReachable c items s → s.inFlight.length ≤ c := by
  intro s hreach
  induction hreach with
  | refl => simp [poolInit]
  | tail _ hstep ih =>
    cases hstep with
    | acquire w rest s' hp hlt => simpa using hlt
    | complete pre post w o s' hif =>
      rw [hif] at ih
      simp only [List.length_append, List.length_cons] at ih ⊢
      omega

/-- Claim C5: at every reachable point of the Bounded Work Pool at most
`concurrency` Processing Function invocations are in flight, and a step
that admits a new item (growing the in-flight set) is possible only from a
state with a free slot — i.e. only after a previously in-flight item has
completed or failed and freed its slot. -/
theorem pool_concurrency_bound (c : Nat) (items : List String) (s : PoolState)
    (hreach : PoolReachable c items s) :
    s.inFlight.length ≤ c ∧
    ∀ u, PoolStep c s u → s.inFlight.length < u.inFlight.length →
      s.inFlight.length < c := by
  refine ⟨pool_inFlight_le c items s hreach, fun u hstep hgrow => ?_⟩
  cases hstep with
  | acquire w rest _ hp hlt => exact hlt
  | complete pre post w o _ hif =>
    rw [hif] at hgrow
    simp only [List.length_append, List.length_cons] at hgrow
    omega

/-- Witness for C5: from the initial pool state with `concurrency = 2`, the
bound holds, and the acquire step from it certifies a free slot. -/
theorem pool_concurrency_bound_witness :
    (poolInit ["a"]).inFlight.length ≤ 2 ∧ (poolInit ["a"]).inFlight.length < 2 :=
  ⟨(pool_concurrency_bound 2 ["a"] (poolInit ["a"]) Relation.ReflTransGen.refl).1,
   (pool_concurrency_bound 2 ["a"] (poolInit ["a"]) Relation.ReflTransGen.refl).2
     ⟨[], ["a"], []⟩ (PoolStep.acquire "a" [] (poolInit ["a"]) rfl (by decide))
     (by decide)⟩

/-- Claim C6: a per-item error (`FetchError`, `TransformError`,
`TimeoutError`) never aborts the processing of any sibling item — when all
errors are non-fatal every item is processed and the run completes with
each item's outcome; only a fatal error terminates the run, the fatal
errors are exactly `DiscoveryError` and `JournalWriteError`, and a
`DiscoveryError` aborts before any item runs. -/
theorem error_containment (items : List String)
    (result : String → Option PipelineError) :
    ((∀ i ∈ items, ∀ e, result i = some e → isFatal e = false) →
      runPool result items = .ok (items.map fun i => (i, (result i).isNone))) ∧
    (∀ pre i post e, items = pre ++ i :: post → result i = some e →
      isFatal e = true →
      (∀ j ∈ pre, ∀ e', result j = some e' → isFatal e' = false) →
      runPool result items = .error e) ∧
    (∀ e, isFatal e = true ↔ e = .discoveryError ∨ e = .journalWriteError) ∧
    (∀ e, runScrape (.error e) result = .error e) := by
  refine ⟨?_, ?_, ?_, fun e => rfl⟩
  · induction items with
    | nil => intro _; rfl
    | cons i rest ih =>
      intro h
      have hrest := ih fun j hj => h j (List.mem_cons_of_mem i hj)
      cases hri : result i with
      | none => simp [runPool, hri, hrest]
      | some e =>
        have hnf : isFatal e = false := h i (List.mem_cons_self i rest) e hri
        simp [runPool, hri, hnf, hrest]
  · intro pre
    induction pre generalizing items with
    | nil =>
      intro i post e hitems hri hf _
      subst hitems
      simp [runPool, hri, hf]
    | cons j pre' ih =>
      intro i post e hitems hri hf hpre
      subst hitems
      have hrec := ih (pre' ++ i :: post) i post e rfl hri hf
        fun j' hj' => hpre j' (List.mem_cons_of_mem j hj')
      cases hrj : result j with
      | none => simp [runPool, hrj, hrec]
      | some e' =>
        have hnf : isFatal e' = false :=
          hpre j (List.mem_cons_self j pre') e' hrj
        simp [runPool, hrj, hnf, hrec]
  · intro e
    cases e <;> simp [isFatal]

/-- Witness for C6: a `fetchError` on item `b` leaves siblings `a`, `c`
processed; a `journalWriteError` on `b` after the clean item `a` aborts the
run; `discoveryError` is fatal and aborts before any item runs. -/
theorem error_containment_witness :
    runPool (fun i => if i = "b" then some .fetchError else none) ["a", "b", "c"]
      = .ok ((["a", "b", "c"]).map fun i =>
          (i, ((fun i => if i = "b" then some PipelineError.fetchError else none) i).isNone)) ∧
    runPool (fun i => if i = "b" then some .journalWriteError else none) ["a", "b", "c"]
      = .error .journalWriteError ∧
    (isFatal .discoveryError = true ↔
      PipelineError.discoveryError = .discoveryError ∨
        PipelineError.discoveryError = .journalWriteError) ∧
    runScrape (.error .discoveryError)
      (fun i => if i = "b" then some .fetchError else none) = .error .discoveryError :=
  ⟨(error_containment ["a", "b", "c"] _).1 (by decide),
   (error_containment ["a", "b", "c"] _).2.1 ["a"] "b" ["c"] .journalWriteError
     (by decide) (by decide) (by decide) (by decide),
   (error_containment ["a", "b", "c"]
     (fun i => if i = "b" then some .fetchError else none)).2.2.1 .discoveryError,
   (error_containment ["a", "b", "c"]
     (fun i => if i = "b" then some .fetchError else none)).2.2.2 .discoveryError⟩

/-- `contains` agrees with membership on string lists. -/
theorem contains_eq_true_iff {l : List String} {x : String} :
    l.contains x = true ↔ x ∈ l := by
  simp [List.contains, List.elem_iff]

/-- `contains` is `false` on non-members. -/
theorem contains_eq_false_of_not_mem {l : List String} {x : String} (h : x ∉ l) :
    l.contains x = false := by
  cases hb : l.contains x with
  | false => rfl
  | true => exact absurd (contains_eq_true_iff.mp hb) h

/-- Unfolding of one discovery round. -/
theorem discoverGo_succ (source : Nat → List String) (settle fuel round : Nat)
    (seen : List String) (stag : Nat) :
    discoverGo source settle (fuel + 1) round seen stag =
      if settle ≤ (if (source round).filter (fun x => !(seen.contains x)) = []
          then stag + 1 else 0)
      then round
      else discoverGo source settle fuel (round + 1)
        (seen ++ (source round).filter (fun x => !(seen.contains x)))
        (if (source round).filter (fun x => !(seen.contains x)) = []
          then stag + 1 else 0) := rfl

/-- One discovery round in which every revealed item is already seen:
the stagnation counter increments, the seen set is unchanged. -/
theorem discoverGo_succ_stale (source : Nat → List String) (settle fuel round : Nat)
    (seen : List String) (stag : Nat)
    (hsub : ∀ x ∈ source round, seen.contains x = true) :
    discoverGo source settle (fuel + 1) round seen stag =
      if settle ≤ stag + 1 then round
      else discoverGo source settle fuel (round + 1) seen (stag + 1) := by
  have hfilter : (source round).filter (fun x => !(seen.contains x)) = [] := by
    rw [List.filter_eq_nil_iff]
    intro x hx
    rw [hsub x hx]
    simp
  rw [discoverGo_succ, hfilter]
  simp only [eq_self_iff_true, if_true, List.append_nil]

/-- One discovery round that reveals at least one new item: the stagnation
counter resets and the new items join the seen set. -/
theorem discoverGo_succ_fresh (source : Nat → List String) (settle fuel round : Nat)
    (seen : List String) (stag : Nat)
    (hnew : ∃ x ∈ source round, seen.contains x = false) :
    discoverGo source settle (fuel + 1) round seen stag =
      if settle ≤ 0 then round
      else discoverGo source settle fuel (round + 1)
        (seen ++ (source round).filter (fun x => !(seen.contains x))) 0 := by
  obtain ⟨x, hx, hcx⟩ := hnew
  have hne : (source round).filter (fun x => !(seen.contains x)) ≠ [] := by
    intro h
    rw [List.filter_eq_nil_iff] at h
    refine h x hx ?_
    rw [hcx]
    simp
  rw [discoverGo_succ]
  simp only [if_neg hne]

/-- Once every future round only re-surfaces seen items, the loop stops
after exactly `settle - stag` further rounds (given enough fuel). -/
theorem discoverGo_stale_stop (source : Nat → List String) (settle : Nat) :
    ∀ fuel round seen stag,
      (∀ r x, round ≤ r → x ∈ source r → seen.contains x = true) →
      stag < settle →
      settle - stag ≤ fuel →
      discoverGo source settle fuel round seen stag = round + (settle - stag) - 1 := by
  intro fuel
  induction fuel with
  | zero => intro round seen stag _ hlt hle; omega
  | succ fuel ih =>
    intro round seen stag hsub hlt hle
    rw [discoverGo_succ_stale source settle fuel round seen stag
      (fun x hx => hsub round x le_rfl hx)]
    by_cases hs : settle ≤ stag + 1
    · rw [if_pos hs]; omega
    · rw [if_neg hs]
      rw [ih (round + 1) seen (stag + 1)
        (fun r x hr hx => hsub r x (by omega) hx) (by omega) (by omega)]
      omega

/-- Once every future round only re-surfaces seen items, but fuel runs out
before the counter reaches `settle`, the loop uses all its rounds. -/
theorem discoverGo_stale_fuel (source : Nat → List String) (settle : Nat) :
    ∀ fuel round seen stag,
      (∀ r x, round ≤ r → x ∈ source r → seen.contains x = true) →
      1 ≤ round →
      fuel < settle - stag →
      discoverGo source settle fuel round seen stag = round - 1 + fuel := by
  intro fuel
  induction fuel with
  | zero => intro round seen stag _ _ _; simp [discoverGo]
  | succ fuel ih =>
    intro round seen stag hsub hr hf
    rw [discoverGo_succ_stale source settle fuel round seen stag
      (fun x hx => hsub round x le_rfl hx)]
    rw [if_neg (by omega)]
    rw [ih (round + 1) seen (stag + 1)
      (fun r x hr' hx => hsub r x (by omega) hx) (by omega) (by omega)]
    omega

/-- With fresh items through round `K`, nothing new afterwards, and enough
fuel, discovery stops at exactly round `K + settle`. -/
theorem discoverGo_fresh_stop (source : Nat → List String) (settle K : Nat)
    (hsettle : 1 ≤ settle)
    (hfresh : ∀ r, 1 ≤ r → r ≤ K →
      ∃ x, x ∈ source r ∧ ∀ r', 1 ≤ r' → r' < r → x ∉ source r')
    (hstale : ∀ r, K < r → ∀ x, x ∈ source r →
      ∃ r', 1 ≤ r' ∧ r' ≤ K ∧ x ∈ source r') :
    ∀ fuel round seen stag,
      1 ≤ round → round ≤ K + 1 →
      (stag = 0 ∨ round ≤ K) →
      (∀ x, x ∈ seen ↔ ∃ r', 1 ≤ r' ∧ r' < round ∧ x ∈ source r') →
      K + settle ≤ round - 1 + fuel →
      discoverGo source settle fuel round seen stag = K + settle := by
  intro fuel
  induction fuel with
  | zero =>
    intro round seen stag h1 h2 _ _ hK
    exact absurd hK (by omega)
  | succ fuel ih =>
    intro round seen stag h1 h2 hstag hinv hK
    rcases Nat.lt_or_ge round (K + 1) with hc | hc
    · obtain ⟨x, hx, hnotin⟩ := hfresh round h1 (by omega)
      have hxs : x ∉ seen := fun hx' => by
        obtain ⟨r', a, b, c⟩ := (hinv x).mp hx'
        exact hnotin r' a b c
      rw [discoverGo_succ_fresh source settle fuel round seen stag
        ⟨x, hx, contains_eq_false_of_not_mem hxs⟩]
      rw [if_neg (by omega)]
      refine ih (round + 1) _ 0 (by omega) (by omega) (Or.inl rfl) ?_ (by omega)
      intro y
      constructor
      · intro hmem
        rcases List.mem_append.mp hmem with hy | hy
        · obtain ⟨r', a, b, c⟩ := (hinv y).mp hy
          exact ⟨r', a, by omega, c⟩
        · exact ⟨round, h1, by omega, (List.mem_filter.mp hy).1⟩
      · rintro ⟨r', a, b, c⟩
        by_cases hb : r' < round
        · exact List.mem_append.mpr (Or.inl ((hinv y).mpr ⟨r', a, hb, c⟩))
        · have hrr : r' = round := by omega
          subst hrr
          by_cases hy : y ∈ seen
          · exact List.mem_append.mpr (Or.inl hy)
          · refine List.mem_append.mpr (Or.inr (List.mem_filter.mpr ⟨c, ?_⟩))
            rw [contains_eq_false_of_not_mem hy]
            rfl
    · have hround : round = K + 1 := by omega
      subst hround
      have hstag0 : stag = 0 := by
        rcases hstag with h | h
        · exact h
        · omega
      subst hstag0
      rw [discoverGo_stale_stop source settle (fuel + 1) (K + 1) seen 0
        ?_ (by omega) (by omega)]
      · omega
      · intro r x hr hx
        obtain ⟨r', a, b, c⟩ := hstale r (by omega) x hx
        exact contains_eq_true_iff.mpr ((hinv x).mpr ⟨r', a, by omega, c⟩)

/-- With fresh items through round `K` and nothing new afterwards, but
`maxRounds` smaller than `K + settle`, discovery uses all its rounds. -/
theorem discoverGo_fresh_fuel (source : Nat → List String) (settle K : Nat)
    (hsettle : 1 ≤ settle)
    (hfresh : ∀ r, 1 ≤ r → r ≤ K →
      ∃ x, x ∈ source r ∧ ∀ r', 1 ≤ r' → r' < r → x ∉ source r')
    (hstale : ∀ r, K < r → ∀ x, x ∈ source r →
      ∃ r', 1 ≤ r' ∧ r' ≤ K ∧ x ∈ source r') :
    ∀ fuel round seen stag,
      1 ≤ round → round ≤ K + 1 →
      (stag = 0 ∨ round ≤ K) →
      (∀ x, x ∈ seen ↔ ∃ r', 1 ≤ r' ∧ r' < round ∧ x ∈ source r') →
      round - 1 + fuel < K + settle →
      discoverGo source settle fuel round seen stag = round - 1 + fuel := by
  intro fuel
  induction fuel with
  | zero => intro round seen stag _ _ _ _ _; simp [discoverGo]
  | succ fuel ih =>
    intro round seen stag h1 h2 hstag hinv hcond
    rcases Nat.lt_or_ge round (K + 1) with hc | hc
    · obtain ⟨x, hx, hnotin⟩ := hfresh round h1 (by omega)
      have hxs : x ∉ seen := fun hx' => by
        obtain ⟨r', a, b, c⟩ := (hinv x).mp hx'
        exact hnotin r' a b c
      rw [discoverGo_succ_fresh source settle fuel round seen stag
        ⟨x, hx, contains_eq_false_of_not_mem hxs⟩]
      rw [if_neg (by omega)]
      rw [ih (round + 1) _ 0 (by omega) (by omega) (Or.inl rfl) ?_ (by omega)]
      · omega
      intro y
      constructor
      · intro hmem
        rcases List.mem_append.mp hmem with hy | hy
        · obtain ⟨r', a, b, c⟩ := (hinv y).mp hy
          exact ⟨r', a, by omega, c⟩
        · exact ⟨round, h1, by omega, (List.mem_filter.mp hy).1⟩
      · rintro ⟨r', a, b, c⟩
        by_cases hb : r' < round
        · exact List.mem_append.mpr (Or.inl ((hinv y).mpr ⟨r', a, hb, c⟩))
        · have hrr : r' = round := by omega
          subst hrr
          by_cases hy : y ∈ seen
          · exact List.mem_append.mpr (Or.inl hy)
          · refine List.mem_append.mpr (Or.inr (List.mem_filter.mpr ⟨c, ?_⟩))
            rw [contains_eq_false_of_not_mem hy]
            rfl
    · have hround : round = K + 1 := by omega
      subst hround
      have hstag0 : stag = 0 := by
        rcases hstag with h | h
        · exact h
        · omega
      subst hstag0
      rw [discoverGo_stale_fuel source settle (fuel + 1) (K + 1) seen 0
        ?_ (by omega) (by omega)]
      intro r x hr hx
      obtain ⟨r', a, b, c⟩ := hstale r (by omega) x hx
      exact contains_eq_true_iff.mpr ((hinv x).mpr ⟨r', a, by omega, c⟩)

/-- Claim C2: for a source whose rounds `1..K` each reveal a genuinely new
item and whose rounds after `K` only re-surface items from rounds `1..K`,
discovery stops at round `min (K + settleRounds) maxRounds` — the
stagnation counter reaching `settleRounds` or `maxRounds` running out,
whichever comes first; in particular, when `K + settleRounds ≤ maxRounds`
it halts at exactly round `K + settleRounds`, not later and not earlier. -/
theorem discovery_termination (source : Nat → List String)
    (settleRounds maxRounds K : Nat)
    (hsettle : 1 ≤ settleRounds)
    (hfresh : ∀ r, 1 ≤ r → r ≤ K →
      ∃ x, x ∈ source r ∧ ∀ r', 1 ≤ r' → r' < r → x ∉ source r')
    (hstale : ∀ r, K < r → ∀ x, x ∈ source r →
      ∃ r', 1 ≤ r' ∧ r' ≤ K ∧ x ∈ source r') :
    runDiscovery source settleRounds maxRounds = min (K + settleRounds) maxRounds ∧
    (K + settleRounds ≤ maxRounds →
      runDiscovery source settleRounds maxRounds = K + settleRounds) := by
  have hinv0 : ∀ x : String,
      x ∈ ([] : List String) ↔ ∃ r', 1 ≤ r' ∧ r' < 1 ∧ x ∈ source r' := by
    intro x
    constructor
    · intro h; exact absurd h (List.not_mem_nil x)
    · rintro ⟨r', a, b, _⟩; omega
  have hmain : runDiscovery source settleRounds maxRounds
      = min (K + settleRounds) maxRounds := by
    unfold runDiscovery
    rcases le_or_lt (K + settleRounds) maxRounds with hle | hlt
    · rw [discoverGo_fresh_stop source settleRounds K hsettle hfresh hstale
        maxRounds 1 [] 0 le_rfl (by omega) (Or.inl rfl) hinv0 (by omega)]
      omega
    · rw [discoverGo_fresh_fuel source settleRounds K hsettle hfresh hstale
        maxRounds 1 [] 0 le_rfl (by omega) (Or.inl rfl) hinv0 (by omega)]
      omega
  exact ⟨hmain, fun h => by rw [hmain]; omega⟩

/-- Witness for C2: a source revealing one item in round 1 and nothing new
afterwards, with `settleRounds = 2` and `maxRounds = 10`, stops at round
`1 + 2 = 3`. -/
theorem discovery_termination_witness :
    runDiscovery (fun r => if r = 1 then ["a"] else []) 2 10 = min 3 10 :=
  (discovery_termination (fun r => if r = 1 then ["a"] else []) 2 10 1
    (by decide)
    (by
      intro r h1 h2
      have hr : r = 1 := by omega
      subst hr
      exact ⟨"a", by simp, fun r' ha hb => by omega⟩)
    (by
      intro r hr x hx
      have hne : ¬r = 1 := by omega
      simp [hne] at hx)).1

/-- Consuming a literal prefix succeeds and returns the rest. -/
theorem expectLit_append (lit rest : List Char) :
    expectLit lit (lit ++ rest) = some rest := by
  induction lit with
  | nil => rfl
  | cons c cs ih => simp [expectLit, ih]

/-- `takeUntil` splits at the first occurrence of the stop character. -/
theorem takeUntil_append (stop : Char) (a b : List Char) (ha : stop ∉ a) :
    takeUntil stop (a ++ stop :: b) = some (a, b) := by
  induction a with
  | nil => simp [takeUntil]
  | cons c cs ih =>
    have hc : ¬(c = stop) := fun h => ha (h ▸ List.mem_cons_self c cs)
    simp only [List.cons_append, takeUntil, if_neg hc, List.append_eq]
    rw [ih fun h => ha (List.mem_cons_of_mem c h)]

/-- `takeWhile`/`dropWhile` split a list of satisfying characters followed
by a non-satisfying one. -/
theorem takeWhile_dropWhile_append (p : Char → Bool) (xs : List Char)
    (y : Char) (ys : List Char)
    (hxs : ∀ x ∈ xs, p x = true) (hy : p y = false) :
    (xs ++ y :: ys).takeWhile p = xs ∧ (xs ++ y :: ys).dropWhile p = y :: ys := by
  induction xs with
  | nil =>
    constructor
    · simp [List.takeWhile_cons, hy]
    · simp [List.dropWhile_cons, hy]
  | cons x xs ih =>
    have hx : p x = true := hxs x (List.mem_cons_self _ _)
    have ih' := ih fun z hz => hxs z (List.mem_cons_of_mem x hz)
    constructor
    · simp [List.takeWhile_cons, hx, ih'.1]
    · simp [List.dropWhile_cons, hx, ih'.2]

/-- The digit character of `d < 10` decodes back to `d`. -/
theorem digitVal_char (d : Nat) (hd : d < 10) :
    digitVal (Char.ofNat (48 + d)) = d := by
  interval_cases d <;> rfl

/-- The digit character of `d < 10` is a digit. -/
theorem isDigit_char (d : Nat) (hd : d < 10) :
    (Char.ofNat (48 + d)).isDigit = true := by
  interval_cases d <;> rfl

/-- `natToCharsAux` with enough fuel renders only digits, decodes back to
its input, and is nonempty on positive input. -/
theorem natToCharsAux_spec :
    ∀ fuel n, n ≤ fuel →
      (∀ c ∈ natToCharsAux fuel n, c.isDigit = true) ∧
      natOfDigits (natToCharsAux fuel n) = n ∧
      (n ≠ 0 → natToCharsAux fuel n ≠ []) := by
  intro fuel
  induction fuel with
  | zero =>
    intro n hn
    have hn0 : n = 0 := by omega
    subst hn0
    refine ⟨fun c hc => absurd hc (List.not_mem_nil c), rfl, fun h => absurd rfl h⟩
  | succ fuel ih =>
    intro n hn
    by_cases h0 : n = 0
    · subst h0
      refine ⟨?_, ?_, fun h => absurd rfl h⟩
      · intro c hc
        simp [natToCharsAux] at hc
      · simp [natToCharsAux, natOfDigits]
    · have hdiv : n / 10 ≤ fuel := by
        have := Nat.div_lt_self (Nat.pos_of_ne_zero h0) (by norm_num : 1 < 10)
        omega
      obtain ⟨ihd, ihv, _⟩ := ih (n / 10) hdiv
      have hmod : n % 10 < 10 := Nat.mod_lt _ (by norm_num)
      have hrw : natToCharsAux (fuel + 1) n
          = natToCharsAux fuel (n / 10) ++ [Char.ofNat (48 + n % 10)] := by
        simp [natToCharsAux, h0]
      refine ⟨?_, ?_, fun _ => ?_⟩
      · intro c hc
        rw [hrw] at hc
        rcases List.mem_append.mp hc with hc' | hc'
        · exact ihd c hc'
        · rw [List.mem_singleton.mp hc']
          exact isDigit_char _ hmod
      · rw [hrw]
        unfold natOfDigits
        rw [List.foldl_append]
        unfold natOfDigits at ihv
        simp only [List.foldl_cons, List.foldl_nil]
        rw [ihv, digitVal_char _ hmod]
        omega
      · rw [hrw]
        simp

/-- Every character of a rendered number is a digit. -/
theorem natToChars_digits (n : Nat) : ∀ c ∈ natToChars n, c.isDigit = true := by
  intro c hc
  unfold natToChars at hc
  by_cases h : n = 0
  · rw [if_pos h] at hc
    rw [List.mem_singleton.mp hc]
    rfl
  · rw [if_neg h] at hc
    exact (natToCharsAux_spec n n le_rfl).1 c hc

/-- A rendered number is never the empty string. -/
theorem natToChars_ne_nil (n : Nat) : natToChars n ≠ [] := by
  unfold natToChars
  by_cases h : n = 0
  · rw [if_pos h]; simp
  · rw [if_neg h]
    exact (natToCharsAux_spec n n le_rfl).2.2 h

/-- Rendering then decoding a natural number is the identity. -/
theorem natOfDigits_natToChars (n : Nat) : natOfDigits (natToChars n) = n := by
  unfold natToChars
  by_cases h : n = 0
  · rw [if_pos h, h]; rfl
  · rw [if_neg h]
    exact (natToCharsAux_spec n n le_rfl).2.1

/-- Round-trip: the journal line of a good record parses back to it. -/
theorem parse_encode (r : SuccessRecord) (h : goodRecord r) :
    parseLine (encodeSuccess r) = some r := by
  obtain ⟨h1, h2⟩ := h
  show parseChars (encodeChars r) = some r
  have hdw := takeWhile_dropWhile_append Char.isDigit (natToChars r.timestamp)
    '\x7d' [] (natToChars_digits _) rfl
  have hie : (natToChars r.timestamp).isEmpty = false :=
    List.isEmpty_eq_false.mpr (natToChars_ne_nil _)
  unfold encodeChars parseChars
  simp only [List.append_assoc, List.cons_append, expectLit_append,
    takeUntil_append '"' r.id.data _ h1,
    takeUntil_append '"' r.outputPath.data _ h2, hdw.1, hdw.2, hie,
    Bool.false_eq_true, if_false, natOfDigits_natToChars,
    eq_self_iff_true, if_true]

/-- A line carries `id` exactly when it parses to a record with that id. -/
theorem lineHasId_eq_true (id l : String) :
    lineHasId id l = true ↔ ∃ r, parseLine l = some r ∧ r.id = id := by
  unfold lineHasId
  cases h : parseLine l with
  | none => simp [h]
  | some r => simp [h, beq_iff_eq]

/-- On a freshly loaded store, `has` agrees with the journal contents. -/
theorem has_loadStore (lines : List String) :
    ∀ id, has (loadStore lines) id = journalHasSuccess (loadStore lines) id := by
  intro id
  rw [Bool.eq_iff_iff]
  show (loadSeen lines).contains id = true ↔ lines.any (lineHasId id) = true
  unfold loadSeen
  rw [contains_eq_true_iff, List.any_eq_true]
  constructor
  · intro hmem
    obtain ⟨r, hr, hid⟩ := List.mem_map.mp hmem
    obtain ⟨l, hl, hpl⟩ := List.mem_filterMap.mp hr
    exact ⟨l, hl, (lineHasId_eq_true id l).mpr ⟨r, hpl, hid⟩⟩
  · rintro ⟨l, hl, hml⟩
    obtain ⟨r, hpl, hid⟩ := (lineHasId_eq_true id l).mp hml
    exact List.mem_map.mpr ⟨r, List.mem_filterMap.mpr ⟨l, hl, hpl⟩, hid⟩

/-- `has` after `recordSuccess`: the old set plus the new id. -/
theorem has_recordSuccess_iff (m : ManifestStore) (r : SuccessRecord) (id : String) :
    has (recordSuccess m r) id = true ↔ has m id = true ∨ id = r.id := by
  unfold has recordSuccess
  simp only [contains_eq_true_iff, List.mem_append, List.mem_singleton]

/-- The journal after `recordSuccess` of a good record has a `Success` line
for `id` exactly when the old journal had one or `id` is the new id. -/
theorem journalHasSuccess_recordSuccess_iff (m : ManifestStore) (r : SuccessRecord)
    (id : String) (hg : goodRecord r) :
    journalHasSuccess (recordSuccess m r) id = true ↔
      journalHasSuccess m id = true ∨ id = r.id := by
  unfold journalHasSuccess recordSuccess
  have hl : lineHasId id (encodeSuccess r) = (r.id == id) := by
    unfold lineHasId
    rw [parse_encode r hg]
  simp only [List.any_append, List.any_cons, List.any_nil, hl, Bool.or_eq_true,
    Bool.or_false, beq_iff_eq]
  constructor
  · rintro (h | h)
    · exact Or.inl h
    · exact Or.inr h.symm
  · rintro (h | h)
    · exact Or.inl h
    · exact Or.inr h.symm

/-- One good recording operation preserves the `has`/journal agreement. -/
theorem store_inv_step (m : ManifestStore) (op : ManifestOp) (hg : goodOp op = true)
    (hm : ∀ id, has m id = journalHasSuccess m id) :
    ∀ id, has (applyOp m op) id = journalHasSuccess (applyOp m op) id := by
  intro id
  cases op with
  | success r =>
    have hgr : goodRecord r := of_decide_eq_true hg
    show has (recordSuccess m r) id = journalHasSuccess (recordSuccess m r) id
    rw [Bool.eq_iff_iff, has_recordSuccess_iff,
      journalHasSuccess_recordSuccess_iff m r id hgr, hm id]
  | failure f => exact hm id

/-- A sequence of good recording operations preserves the agreement. -/
theorem store_inv_ops (ops : List ManifestOp) :
    ∀ m, (∀ op ∈ ops, goodOp op = true) →
      (∀ id, has m id = journalHasSuccess m id) →
      ∀ id, has (applyOps m ops) id = journalHasSuccess (applyOps m ops) id := by
  induction ops with
  | nil => intro m _ hm; exact hm
  | cons op ops ih =>
    intro m hgood hm
    exact ih (applyOp m op) (fun o ho => hgood o (List.mem_cons_of_mem op ho))
      (store_inv_step m op (hgood op (List.mem_cons_self _ _)) hm)

/-- Claim C4: on a store loaded from a journal and updated by any sequence
of good recording operations, `has id` is `true` exactly when a `Success`
record for `id` exists in the journal; and `recordFailure` never changes
`has`, so a failed item stays eligible for resume and retry. -/
theorem manifest_has_iff_success (lines : List String) (ops : List ManifestOp)
    (hgood : ∀ op ∈ ops, goodOp op = true) (id f : String) :
    has (applyOps (loadStore lines) ops) id
      = journalHasSuccess (applyOps (loadStore lines) ops) id ∧
    has (recordFailure (applyOps (loadStore lines) ops) f) id
      = has (applyOps (loadStore lines) ops) id :=
  ⟨store_inv_ops ops (loadStore lines) hgood (has_loadStore lines) id, rfl⟩

/-- Witness for C4: a journal with one valid line and one junk line,
followed by one success and one failure record. -/
theorem manifest_has_iff_success_witness :
    has (applyOps (loadStore [encodeSuccess ⟨"a", "out/a", 1⟩, "junk"])
        [ManifestOp.success ⟨"b", "out/b", 2⟩, ManifestOp.failure "c"]) "b"
      = journalHasSuccess
          (applyOps (loadStore [encodeSuccess ⟨"a", "out/a", 1⟩, "junk"])
            [ManifestOp.success ⟨"b", "out/b", 2⟩, ManifestOp.failure "c"]) "b" ∧
    has (recordFailure
          (applyOps (loadStore [encodeSuccess ⟨"a", "out/a", 1⟩, "junk"])
            [ManifestOp.success ⟨"b", "out/b", 2⟩, ManifestOp.failure "c"]) "c") "b"
      = has (applyOps (loadStore [encodeSuccess ⟨"a", "out/a", 1⟩, "junk"])
            [ManifestOp.success ⟨"b", "out/b", 2⟩, ManifestOp.failure "c"]) "b" :=
  manifest_has_iff_success [encodeSuccess ⟨"a", "out/a", 1⟩, "junk"]
    [ManifestOp.success ⟨"b", "out/b", 2⟩, ManifestOp.failure "c"]
    (by decide) "b" "c"

/-- Claim C1: loading a journal whose final line is malformed (for example
truncated) recovers exactly the valid prior lines — the load is a total
function, the malformed tail line is skipped rather than aborting it — and
every item whose `Success` record was recovered is skipped on resume. -/
theorem corrupt_journal_resume (prior : List String) (last : String)
    (hmal : parseLine last = none) :
    loadSeen (prior ++ [last]) = loadSeen prior ∧
    (∀ l ∈ prior, ∀ r, parseLine l = some r →
      has (loadStore (prior ++ [last])) r.id = true) ∧
    (∀ i : WorkItem, (∃ l ∈ prior, ∃ r, parseLine l = some r ∧ r.id = i.id) →
      shouldSkip (loadStore (prior ++ [last])) true i.id = true) := by
  have hseen : loadSeen (prior ++ [last]) = loadSeen prior := by
    unfold loadSeen
    rw [List.filterMap_append]
    simp [List.filterMap_cons, hmal]
  have hrec : ∀ l ∈ prior, ∀ r, parseLine l = some r →
      has (loadStore (prior ++ [last])) r.id = true := by
    intro l hl r hpr
    show (loadSeen (prior ++ [last])).contains r.id = true
    rw [hseen, contains_eq_true_iff]
    exact List.mem_map.mpr ⟨r, List.mem_filterMap.mpr ⟨l, hl, hpr⟩, rfl⟩
  refine ⟨hseen, hrec, ?_⟩
  rintro i ⟨l, hl, r, hpr, hid⟩
  show (true && has (loadStore (prior ++ [last])) i.id) = true
  rw [Bool.true_and, ← hid]
  exact hrec l hl r hpr

/-- Witness for C1: a journal of one valid line followed by a truncated
line loads to the same seen set as without the truncated line, and the
recovered item `"a"` is skipped on resume. -/
theorem corrupt_journal_resume_witness :
    loadSeen [encodeSuccess ⟨"a", "imgs/a", 7⟩,
        "\x7b\"id\":\"b\",\"outputPath\":\"imgs/b\",\"timesta"]
      = loadSeen [encodeSuccess ⟨"a", "imgs/a", 7⟩] ∧
    has (loadStore [encodeSuccess ⟨"a", "imgs/a", 7⟩,
        "\x7b\"id\":\"b\",\"outputPath\":\"imgs/b\",\"timesta"]) "a" = true ∧
    shouldSkip (loadStore [encodeSuccess ⟨"a", "imgs/a", 7⟩,
        "\x7b\"id\":\"b\",\"outputPath\":\"imgs/b\",\"timesta"]) true "a" = true := by
  have h := corrupt_journal_resume [encodeSuccess ⟨"a", "imgs/a", 7⟩]
    "\x7b\"id\":\"b\",\"outputPath\":\"imgs/b\",\"timesta" rfl
  exact ⟨h.1,
    h.2.1 (encodeSuccess ⟨"a", "imgs/a", 7⟩) (List.mem_cons_self _ _)
      ⟨"a", "imgs/a", 7⟩ rfl,
    h.2.2 ⟨"a", "u"⟩ ⟨encodeSuccess ⟨"a", "imgs/a", 7⟩, List.mem_cons_self _ _,
      ⟨"a", "imgs/a", 7⟩, rfl, rfl⟩⟩

/-- Unfolding of `runPipeline` on a skipped item. -/
theorem runPipeline_cons_skip (dir : String) (p : WorkItem → Bool) (resume : Bool)
    (m : ManifestStore) (i : WorkItem) (rest : List WorkItem)
    (h : shouldSkip m resume i.id = true) :
    runPipeline dir p resume m (i :: rest) = runPipeline dir p resume m rest := by
  simp only [runPipeline]
  rw [if_pos h]

/-- Unfolding of `runPipeline` on a successfully processed item. -/
theorem runPipeline_cons_success (dir : String) (p : WorkItem → Bool) (resume : Bool)
    (m : ManifestStore) (i : WorkItem) (rest : List WorkItem)
    (hns : shouldSkip m resume i.id = false) (hp : p i = true) :
    runPipeline dir p resume m (i :: rest) =
      ((runPipeline dir p resume (recordSuccess m (mkRecord dir i)) rest).1,
       outputPathOf dir i
         :: (runPipeline dir p resume (recordSuccess m (mkRecord dir i)) rest).2) := by
  simp only [runPipeline]
  rw [if_neg (by simp [hns]), if_pos hp]

/-- Unfolding of `runPipeline` on a failing item. -/
theorem runPipeline_cons_failure (dir : String) (p : WorkItem → Bool) (resume : Bool)
    (m : ManifestStore) (i : WorkItem) (rest : List WorkItem)
    (hns : shouldSkip m resume i.id = false) (hp : p i = false) :
    runPipeline dir p resume m (i :: rest)
      = runPipeline dir p resume (recordFailure m i.id) rest := by
  simp only [runPipeline]
  rw [if_neg (by simp [hns]), if_neg (by simp [hp])]

/-- `has` is monotone along a pipeline run. -/
theorem runPipeline_has_mono (dir : String) (p : WorkItem → Bool) (id : String) :
    ∀ (items : List WorkItem) (m : ManifestStore), has m id = true →
      has (runPipeline dir p true m items).1 id = true := by
  intro items
  induction items with
  | nil => intro m hm; exact hm
  | cons i rest ih =>
    intro m hm
    by_cases hs : shouldSkip m true i.id = true
    · rw [runPipeline_cons_skip dir p true m i rest hs]
      exact ih m hm
    · have hs' : shouldSkip m true i.id = false := Bool.eq_false_iff.mpr hs
      by_cases hp : p i = true
      · rw [runPipeline_cons_success dir p true m i rest hs' hp]
        exact ih _ ((has_recordSuccess_iff m (mkRecord dir i) id).mpr (Or.inl hm))
      · have hp' : p i = false := Bool.eq_false_iff.mpr hp
        rw [runPipeline_cons_failure dir p true m i rest hs' hp']
        exact ih _ hm

/-- After a run, every listed item whose Processing Function succeeds is in
the seen set. -/
theorem runPipeline_success_has (dir : String) (p : WorkItem → Bool) :
    ∀ (items : List WorkItem) (m : ManifestStore) (i : WorkItem),
      i ∈ items → p i = true →
      has (runPipeline dir p true m items).1 i.id = true := by
  intro items
  induction items with
  | nil => intro m i hi _; exact absurd hi (List.not_mem_nil i)
  | cons j rest ih =>
    intro m i hi hp
    rcases List.mem_cons.mp hi with rfl | hi'
    · by_cases hs : shouldSkip m true i.id = true
      · rw [runPipeline_cons_skip dir p true m i rest hs]
        have hhas : has m i.id = true := by
          unfold shouldSkip at hs
          simpa using hs
        exact runPipeline_has_mono dir p i.id rest m hhas
      · have hs' : shouldSkip m true i.id = false := Bool.eq_false_iff.mpr hs
        rw [runPipeline_cons_success dir p true m i rest hs' hp]
        exact runPipeline_has_mono dir p i.id rest _
          ((has_recordSuccess_iff m (mkRecord dir i) i.id).mpr (Or.inr rfl))
    · by_cases hs : shouldSkip m true j.id = true
      · rw [runPipeline_cons_skip dir p true m j rest hs]
        exact ih m i hi' hp
      · have hs' : shouldSkip m true j.id = false := Bool.eq_false_iff.mpr hs
        by_cases hpj : p j = true
        · rw [runPipeline_cons_success dir p true m j rest hs' hpj]
          exact ih _ i hi' hp
        · have hpj' : p j = false := Bool.eq_false_iff.mpr hpj
          rw [runPipeline_cons_failure dir p true m j rest hs' hpj']
          exact ih _ i hi' hp

/-- A resume run over items that are already seen whenever they would
succeed appends nothing to the journal and writes no output file. -/
theorem runPipeline_stable (dir : String) (p : WorkItem → Bool) :
    ∀ (items : List WorkItem) (m : ManifestStore),
      (∀ i ∈ items, p i = true → has m i.id = true) →
      (runPipeline dir p true m items).1.journal = m.journal ∧
      (runPipeline dir p true m items).2 = [] := by
  intro items
  induction items with
  | nil => intro m _; exact ⟨rfl, rfl⟩
  | cons i rest ih =>
    intro m hall
    by_cases hs : shouldSkip m true i.id = true
    · rw [runPipeline_cons_skip dir p true m i rest hs]
      exact ih m fun j hj => hall j (List.mem_cons_of_mem i hj)
    · have hs' : shouldSkip m true i.id = false := Bool.eq_false_iff.mpr hs
      have hhas : has m i.id = false := by
        unfold shouldSkip at hs'
        simpa using hs'
      have hp : p i = false := by
        cases hpv : p i
        · rfl
        · have hcontra := hall i (List.mem_cons_self _ _) hpv
          rw [hhas] at hcontra
          exact absurd hcontra (by simp)
      rw [runPipeline_cons_failure dir p true m i rest hs' hp]
      exact ih _ fun j hj hpj => hall j (List.mem_cons_of_mem i hj) hpj

/-- Claim C7: running the pipeline a second time in resume mode over the
unchanged item sequence and Processing Function is idempotent — the second
run appends no journal entry at all (in particular none for an id already
recorded as a `Success`) and writes no output file, so no duplicates
arise. -/
theorem pipeline_idempotent (dir : String) (p : WorkItem → Bool)
    (m0 : ManifestStore) (items : List WorkItem) :
    (runPipeline dir p true (runPipeline dir p true m0 items).1 items).1.journal
      = (runPipeline dir p true m0 items).1.journal ∧
    (runPipeline dir p true (runPipeline dir p true m0 items).1 items).2 = [] :=
  runPipeline_stable dir p items (runPipeline dir p true m0 items).1
    fun i hi hp => runPipeline_success_has dir p items m0 i hi hp

end MonkeyHub
